import Mathlib

/-!
# Verification of `mrjob/tools/emr/audit_usage.py`

A shallow embedding of the EMR usage-audit tool: the naming-convention
regular expression `JOB_FLOW_NAME_RE`, the per-cluster record construction
performed by the fetch loop of `print_report`, and the pure
aggregation/formatting pipeline that renders the report.  Python floats are
modelled as exact rationals (`ℚ`), Python's `None` as `Option.none`, and the
printed report as the list of its lines.
-/

namespace AuditUsage

/-- `maxSplit P n` returns the largest `k < n` satisfying `P`, if any.
This is the search order of a greedy `(.*)` capture under backtracking:
the longest candidate prefix is tried first. -/
def maxSplit (P : Nat → Bool) : Nat → Option Nat
  | 0 => none
  | n + 1 => if P n then some n else maxSplit P n

/-- A candidate capture of Python's `.*`: `.` matches any character except
a newline (the pattern is compiled without `DOTALL`). -/
def noNl (cs : List Char) : Bool :=
  cs.all (fun c => c != '\n')

/-- Python's `$` without `MULTILINE`: it matches at the end of the string,
or just before one newline at the end of the string.  `dollarOnly r` says
the text remaining after the last capture is such an end. -/
def dollarOnly (cs : List Char) : Bool :=
  cs.isEmpty || cs == ['\n']

/-- Embedding of the regex tail `(\d+)\.(\d+)\.(\d+)$` of `JOB_FLOW_NAME_RE`:
three nonempty digit runs separated by literal dots, the last followed by a
position where `$` matches (end of string, or one trailing newline).
(`\d+` followed by a dot or the anchor is deterministic: a shorter digit run
would still face a digit, which matches neither `\.` nor `$`.) -/
def matchD3 (cs : List Char) : Bool :=
  match cs.dropWhile Char.isDigit with
  | '.' :: r1 =>
    !(cs.takeWhile Char.isDigit).isEmpty &&
      (match r1.dropWhile Char.isDigit with
       | '.' :: r2 =>
         !(r1.takeWhile Char.isDigit).isEmpty &&
           !(r2.takeWhile Char.isDigit).isEmpty &&
           dollarOnly (r2.dropWhile Char.isDigit)
       | _ => false)
  | _ => false

/-- At split point `k` of `cs`: the `(.*)` capture `cs.take k` is
newline-free, and a literal dot follows, then a match of the digit tail
`(\d+)\.(\d+)\.(\d+)$`. -/
def tailP (cs : List Char) (k : Nat) : Bool :=
  noNl (cs.take k) &&
    match cs.drop k with
    | '.' :: tail => matchD3 tail
    | _ => false

/-- Embedding of `(.*)\.(\d+)\.(\d+)\.(\d+)$` (group 2 onwards of
`JOB_FLOW_NAME_RE`): the greedy `(.*)` takes the longest newline-free
prefix that leaves a match for the digit tail; its capture is returned. -/
def matchG2 (cs : List Char) : Option (List Char) :=
  (maxSplit (tailP cs) cs.length).map (fun k => cs.take k)

/-- At split point `k` of `cs`: the `(.*)` capture `cs.take k` is
newline-free, and a literal dot follows, then a match of
`(.*)\.(\d+)\.(\d+)\.(\d+)$`. -/
def headP (cs : List Char) (k : Nat) : Bool :=
  noNl (cs.take k) &&
    match cs.drop k with
    | '.' :: rest => (matchG2 rest).isSome
    | _ => false

/-- Shallow embedding of `JOB_FLOW_NAME_RE.match`, i.e. the anchored pattern
`^(.*)\.(.*)\.(\d+)\.(\d+)\.(\d+)$` under Python's leftmost-greedy
backtracking semantics: group 1 takes the longest newline-free prefix
(`.` never matches a newline) that leaves a match for the remainder of the
pattern, and group 2 then does the same.  On a match, returns
`(group 1, group 2)` = `(mr_job_name, user)`. -/
def jobFlowNameMatchL (cs : List Char) : Option (List Char × List Char) :=
  match maxSplit (headP cs) cs.length with
  | some k =>
    match cs.drop k with
    | '.' :: rest => (matchG2 rest).map (fun u => (cs.take k, u))
    | _ => none
  | none => none

/-- The language of one `(\d+)` capture: a nonempty run of digits. -/
def allDigits (ds : List Char) : Bool :=
  !ds.isEmpty && ds.all Char.isDigit

/-- `JOB_FLOW_NAME_RE.match` on a `String`. -/
def jobFlowNameMatch (s : String) : Option (String × String) :=
  (jobFlowNameMatchL s.data).map (fun p => (String.mk p.1, String.mk p.2))

example :
    jobFlowNameMatch "mr_word_freq_count.dave.20101103.121249.638552" =
      some ("mr_word_freq_count", "dave") := by rfl

example : jobFlowNameMatch "my-custom-cluster" = none := by rfl

example : jobFlowNameMatch ".dave.1.2.3" = some ("", "dave") := by rfl

example : jobFlowNameMatch "a.b.c.1.2.3" = some ("a.b", "c") := by rfl

example : jobFlowNameMatch "a.b.1.2.3\n" = some ("a", "b") := by rfl

example : jobFlowNameMatch "a\nb.c.1.2.3" = none := by rfl

example : jobFlowNameMatch "a.b.1.2.3\n\n" = none := by rfl

/-- Python whitespace, as stripped by `float(str)`. -/
def isPySpace (c : Char) : Bool :=
  c == ' ' || c == '\t' || c == '\n' || c == '\r' ||
    c == Char.ofNat 11 || c == Char.ofNat 12

/-- Strip leading and trailing Python whitespace. -/
def stripWs (cs : List Char) : List Char :=
  ((cs.dropWhile isPySpace).reverse.dropWhile isPySpace).reverse

/-- Value of a digit run, most significant first. -/
def digitsToNat (ds : List Char) : Nat :=
  ds.foldl (fun a c => 10 * a + (c.toNat - 48)) 0

/-- Exponent part of a Python float literal: `[+-]?\d+`, consuming the whole
remainder, scaling the mantissa by the corresponding power of ten. -/
def pyExp (mant : ℚ) (cs : List Char) : Option ℚ :=
  let p : Bool × List Char :=
    match cs with
    | '+' :: r => (false, r)
    | '-' :: r => (true, r)
    | _ => (false, cs)
  let ed := p.2.takeWhile Char.isDigit
  if ed.isEmpty || !(p.2.dropWhile Char.isDigit).isEmpty then none
  else if p.1 then some (mant / (10 : ℚ) ^ digitsToNat ed)
  else some (mant * (10 : ℚ) ^ digitsToNat ed)

/-- Embedding of Python 2's `float(str)` on a whitespace-stripped character
list: optional sign, integer and/or fractional digit runs around an optional
dot, optional exponent.  Floats are modelled as exact rationals, so the
non-finite literals (`inf`, `nan`) are outside the model; no claim depends
on them. -/
def pyFloatCore (cs : List Char) : Option ℚ :=
  let p : ℚ × List Char :=
    match cs with
    | '+' :: r => (1, r)
    | '-' :: r => (-1, r)
    | _ => (1, cs)
  let ip := p.2.takeWhile Char.isDigit
  let r1 := p.2.dropWhile Char.isDigit
  let q : List Char × List Char :=
    match r1 with
    | '.' :: r => (r.takeWhile Char.isDigit, r.dropWhile Char.isDigit)
    | _ => ([], r1)
  if ip.isEmpty && q.1.isEmpty then none
  else
    let mant : ℚ :=
      p.1 * (digitsToNat (ip ++ q.1) : ℚ) / (10 : ℚ) ^ q.1.length
    match q.2 with
    | [] => some mant
    | 'e' :: r3 => pyExp mant r3
    | 'E' :: r3 => pyExp mant r3
    | _ => none

/-- `float(str)` as called on `jf.normalizedinstancehours`. -/
def pyFloat (s : String) : Option ℚ :=
  pyFloatCore (stripWs s.data)

example : pyFloat "12" = some 12 := by with_unfolding_all decide
example : pyFloat "-3" = some (-3) := by with_unfolding_all decide
example : pyFloat "3.99" = some (399 / 100) := by with_unfolding_all decide
example : pyFloat "" = none := by with_unfolding_all decide
example : pyFloat "4x" = none := by with_unfolding_all decide
example : pyFloat " 2.5e1 " = some 25 := by with_unfolding_all decide

/-- A UTC timestamp as produced by `datetime.datetime.strptime`; ordered
lexicographically by field, like Python `datetime` objects. -/
structure DateTime where
  year : Nat
  month : Nat
  day : Nat
  hour : Nat
  minute : Nat
  second : Nat
deriving DecidableEq, Repr

/-- Python `datetime` comparison: lexicographic by field. -/
def dtLE (a b : DateTime) : Bool :=
  if a.year ≠ b.year then decide (a.year < b.year)
  else if a.month ≠ b.month then decide (a.month < b.month)
  else if a.day ≠ b.day then decide (a.day < b.day)
  else if a.hour ≠ b.hour then decide (a.hour < b.hour)
  else if a.minute ≠ b.minute then decide (a.minute < b.minute)
  else decide (a.second ≤ b.second)

/-- Running minimum as computed by Python's `min` over a sequence. -/
def dtMin (a b : DateTime) : DateTime := if dtLE a b then a else b

/-- Running maximum as computed by Python's `max` over a sequence. -/
def dtMax (a b : DateTime) : DateTime := if dtLE b a then a else b

/-- Modelled from the spec: the provider's serialized timestamp format
(`boto.utils.ISO8601`, i.e. `%Y-%m-%dT%H:%M:%SZ`, parsed by
`datetime.datetime.strptime`) is external-library code not present in the
repository.  The spec says the creation timestamp is parsed from the
provider's ISO-8601-like serialized format and that an unrecognized format
is a fatal `MalformedTimestamp` error, so the model accepts exactly
`YYYY-MM-DDTHH:MM:SSZ` with in-range fields. -/
def parseISO8601L (cs : List Char) : Option DateTime :=
  match cs with
  | [y1, y2, y3, y4, '-', m1, m2, '-', d1, d2, 'T',
     h1, h2, ':', n1, n2, ':', s1, s2, 'Z'] =>
    if ([y1, y2, y3, y4, m1, m2, d1, d2, h1, h2, n1, n2, s1, s2].all
          Char.isDigit) then
      let mo := digitsToNat [m1, m2]
      let da := digitsToNat [d1, d2]
      let ho := digitsToNat [h1, h2]
      let mi := digitsToNat [n1, n2]
      let se := digitsToNat [s1, s2]
      if 1 ≤ mo ∧ mo ≤ 12 ∧ 1 ≤ da ∧ da ≤ 31 ∧ ho ≤ 23 ∧ mi ≤ 59 ∧ se ≤ 59
      then some ⟨digitsToNat [y1, y2, y3, y4], mo, da, ho, mi, se⟩
      else none
    else none
  | _ => none

/-- Timestamp parsing on a `String`. -/
def parseISO8601 (s : String) : Option DateTime :=
  parseISO8601L s.data

example :
    parseISO8601 "2010-11-03T12:12:49Z" = some ⟨2010, 11, 3, 12, 12, 49⟩ :=
  by decide

/-- A raw cluster entry as returned by the external listing service: the
fields of `jf` that `print_report` reads.  A possibly-absent usage field is
an `Option`. -/
structure RawJobFlow where
  jobflowid : String
  name : String
  creationdatetime : String
  normalizedinstancehours : Option String

/-- The spec's error taxonomy for the fetch step. -/
inductive FetchError where
  | malformedTimestamp
  | malformedUsageValue
deriving DecidableEq, Repr

/-- The normalized per-cluster record (`job_flow_info` dict). -/
structure JobFlowInfo where
  id : String
  name : String
  created : DateTime
  hours : ℚ
  mrJobName : Option String
  user : Option String
deriving DecidableEq, Repr

/-- The body of the fetch loop of `print_report`: build one `job_flow_info`
record from a raw entry.  The creation time is parsed first (line 86), then
the usage measure via `float` (line 91), then `JOB_FLOW_NAME_RE` is applied
to the name, setting `mr_job_name` and `user` together from the two capture
groups, or both to `None` on no match (lines 96-103). -/
def mkJobFlowInfo (jf : RawJobFlow) : Except FetchError JobFlowInfo :=
  match parseISO8601 jf.creationdatetime with
  | none => .error .malformedTimestamp
  | some created =>
    match jf.normalizedinstancehours with
    | none => .error .malformedUsageValue
    | some raw =>
      match pyFloat raw with
      | none => .error .malformedUsageValue
      | some hours =>
        match jobFlowNameMatch jf.name with
        | some (j, u) =>
          .ok ⟨jf.jobflowid, jf.name, created, hours, some j, some u⟩
        | none =>
          .ok ⟨jf.jobflowid, jf.name, created, hours, none, none⟩

/-- Python's `'%d' % f` rendering of a float: conversion by `int(f)`, which
truncates toward zero.  On an exact rational this is T-division of the
numerator by the denominator. -/
def pyTrunc (q : ℚ) : ℤ :=
  q.num.tdiv q.den

/-- Right-justification in a field of width `w`, as `'%5d'` does. -/
def padLeft (s : String) (w : Nat) : String :=
  String.mk (List.replicate (w - s.length) ' ') ++ s

/-- Left-justification in a field of width `w`, as `'%-15s'` does. -/
def padRight (s : String) (w : Nat) : String :=
  s ++ String.mk (List.replicate (w - s.length) ' ')

/-- Zero-padded decimal of width `w`, as `strftime`'s `%Y`/`%m`/... fields. -/
def padZero (w : Nat) (n : Nat) : String :=
  String.mk (List.replicate (w - (toString n).length) '0') ++ toString n

/-- `strftime(ISOISH_TIME_FORMAT)`, i.e. `%Y-%m-%d %H:%M:%S`. -/
def strftimeIsoish (d : DateTime) : String :=
  padZero 4 d.year ++ "-" ++ padZero 2 d.month ++ "-" ++ padZero 2 d.day ++
    " " ++ padZero 2 d.hour ++ ":" ++ padZero 2 d.minute ++ ":" ++
    padZero 2 d.second

/-- The helper `fmt` of `print_report` (lines 140-144).  Python truthiness:
both `None` and the empty string are falsy, so both render as the
placeholder label. -/
def fmt (x : Option String) : String :=
  match x with
  | some s => if s.isEmpty then "(not started by mrjob)" else s
  | none => "(not started by mrjob)"

/-- One `+=` update of the `defaultdict(float)` accumulator: add `h` to the
entry at key `k`, default 0. -/
def addHours (m : List (Option String × ℚ)) (k : Option String) (h : ℚ) :
    List (Option String × ℚ) :=
  match m with
  | [] => [(k, h)]
  | (k', h') :: rest =>
    if k' = k then (k', h' + h) :: rest else (k', h') :: addHours rest k h

/-- The grouping loops of `print_report` (lines 148-150 and 158-160):
`d[key(info)] += info['hours']` over all records.  The dict is modelled as
an association list with keys in first-insertion order; the sort applied
next makes the dict's iteration order immaterial. -/
def groupHours (key : JobFlowInfo → Option String) (infos : List JobFlowInfo) :
    List (Option String × ℚ) :=
  infos.foldl (fun m i => addHours m (key i) i.hours) []

/-- Python 2 ordering on the second component of the sort key `(-h, n)`:
`None` compares less than every string, strings compare bytewise. -/
def noneLE (a b : Option String) : Bool :=
  match a, b with
  | none, _ => true
  | some _, none => false
  | some x, some y => decide (x ≤ y)

/-- The comparison induced by the sort key `lambda (n, h): (-h, n)` of
lines 151-152 and 161-162: descending hours, then the key ordering on
names, with `None` below every string. -/
def groupLE (x y : Option String × ℚ) : Bool :=
  if x.2 = y.2 then noneLE x.1 y.1 else decide (y.2 < x.2)

/-- The sorted `(key, summed hours)` pairs of one "Top jobs"/"Top users"
section. -/
def sortedGroups (key : JobFlowInfo → Option String)
    (infos : List JobFlowInfo) : List (Option String × ℚ) :=
  (groupHours key infos).mergeSort groupLE

/-- `'  %5d %s' % (hours, fmt(name))` (lines 153 and 163). -/
def groupLine (p : Option String × ℚ) : String :=
  "  " ++ padLeft (toString (pyTrunc p.2)) 5 ++ " " ++ fmt p.1

/-- All lines of one "Top jobs"/"Top users" section body. -/
def topGroupLines (key : JobFlowInfo → Option String)
    (infos : List JobFlowInfo) : List String :=
  (sortedGroups key infos).map groupLine

/-- The comparison induced by the sort key `lambda i: (-i['hours'],
i['name'])` of lines 168-169. -/
def jfLE (a b : JobFlowInfo) : Bool :=
  if a.hours = b.hours then decide (a.name ≤ b.name)
  else decide (b.hours < a.hours)

/-- `top_job_flows` (lines 168-169): every record, sorted. -/
def topJobFlows (infos : List JobFlowInfo) : List JobFlowInfo :=
  infos.mergeSort jfLE

/-- `'  %5d %-15s %s' % (info['hours'], info['id'], info['name'])`
(line 171). -/
def jobFlowLine (i : JobFlowInfo) : String :=
  "  " ++ padLeft (toString (pyTrunc i.hours)) 5 ++ " " ++
    padRight i.id 15 ++ " " ++ i.name

/-- The report body of `print_report` (lines 107-172) as the list of lines
written to standard output, a pure function of the current time and the
fetched records.  An argumentless `print` is an empty line. -/
def printReport (now : DateTime) (infos : List JobFlowInfo) : List String :=
  match infos with
  | [] => ["No job flows created in the past two months!"]
  | i0 :: rest =>
    let earliest := (rest.map (·.created)).foldl dtMin i0.created
    let latest := (rest.map (·.created)).foldl dtMax i0.created
    let totalHours := (infos.map (·.hours)).sum
    ["Total # of Job Flows: " ++ toString infos.length,
     "",
     "All times are in UTC",
     "",
     "Min create time: " ++ strftimeIsoish earliest,
     "Max create time: " ++ strftimeIsoish latest,
     "   Current time: " ++ strftimeIsoish now,
     "",
     "All usage is measured in Normalized Instance Hours, which are",
     "roughly equivalent to running an m1.small instance for an hour",
     "",
     "Total Usage: " ++ toString (pyTrunc totalHours),
     "",
     "Top jobs (based on which job started the job flow):"] ++
    topGroupLines (·.mrJobName) infos ++
    ["",
     "Top users (based on which user started the job flow):"] ++
    topGroupLines (·.user) infos ++
    ["",
     "Top job flows:"] ++
    (topJobFlows infos).map jobFlowLine ++
    [""]

/-! ## Helper lemmas -/

theorem addHours_values_sum (m : List (Option String × ℚ))
    (k : Option String) (h : ℚ) :
    ((addHours m k h).map (fun p => p.2)).sum =
      (m.map (fun p => p.2)).sum + h := by
  induction m with
  | nil => simp [addHours]
  | cons p rest ih =>
    by_cases hk : p.1 = k
    · simp [addHours, hk]
      ring
    · simp [addHours, hk, ih]
      ring

theorem groupHours_foldl_sum (key : JobFlowInfo → Option String)
    (infos : List JobFlowInfo) :
    ∀ m : List (Option String × ℚ),
      ((infos.foldl (fun m i => addHours m (key i) i.hours) m).map
          (fun p => p.2)).sum =
        (m.map (fun p => p.2)).sum + (infos.map (fun i => i.hours)).sum := by
  induction infos with
  | nil => simp
  | cons i rest ih =>
    intro m
    simp only [List.foldl_cons, ih, addHours_values_sum, List.map_cons,
      List.sum_cons]
    ring

/-! ## C8: empty input -/

/-- C8: if the input list of records is empty, the report output is exactly
the one-line "no clusters" message and nothing else. -/
theorem printReport_empty_single_line (now : DateTime) :
    printReport now [] = ["No job flows created in the past two months!"] :=
  rfl

/-! ## C7: jobName and user set together -/

/-- C7: every record the fetcher constructs has `mr_job_name` and `user`
both present or both absent. -/
theorem mrJobName_user_together (jf : RawJobFlow) (info : JobFlowInfo)
    (h : mkJobFlowInfo jf = .ok info) :
    info.mrJobName.isSome ↔ info.user.isSome := by
  unfold mkJobFlowInfo at h
  split at h
  · exact Except.noConfusion h
  · split at h
    · exact Except.noConfusion h
    · split at h
      · exact Except.noConfusion h
      · split at h
        · injection h with h'
          subst h'
          simp
        · injection h with h'
          subst h'
          simp

/-- A concrete raw entry whose name follows the convention. -/
def jfConv : RawJobFlow :=
  ⟨"j-1", "mr_wc.alice.20101103.121249.638552", "2010-11-03T12:12:49Z",
    some "5.5"⟩

/-- The record the fetcher builds from `jfConv`. -/
def infoConv : JobFlowInfo :=
  ⟨"j-1", "mr_wc.alice.20101103.121249.638552", ⟨2010, 11, 3, 12, 12, 49⟩,
    11 / 2, some "mr_wc", some "alice"⟩

theorem mrJobName_user_together_witness :
    infoConv.mrJobName.isSome ↔ infoConv.user.isSome :=
  mrJobName_user_together jfConv infoConv (by with_unfolding_all rfl)

/-! ## C2: usage-field parsing -/

/-- A concrete raw entry whose usage field is a negative number. -/
def jfNeg : RawJobFlow :=
  ⟨"j-NEG", "x", "2010-11-03T12:12:49Z", some "-3"⟩

/-- C2 counterexample: a cluster entry whose usage field parses as a
negative number is NOT rejected: the fetcher accepts it and stores the
negative hours value. -/
theorem usage_negative_accepted :
    mkJobFlowInfo jfNeg =
      .ok ⟨"j-NEG", "x", ⟨2010, 11, 3, 12, 12, 49⟩, -3, none, none⟩ ∧
      ((-3 : ℚ) < 0) := by
  constructor
  · with_unfolding_all rfl
  · norm_num

/-- C2 amended: for an entry whose creation timestamp parses, the fetcher
fails with `MalformedUsageValue` exactly when the usage field is absent or
does not parse as a (possibly signed) float; no sign check is performed. -/
theorem usage_error_iff (jf : RawJobFlow)
    (hts : (parseISO8601 jf.creationdatetime).isSome) :
    mkJobFlowInfo jf = .error .malformedUsageValue ↔
      jf.normalizedinstancehours.bind pyFloat = none := by
  obtain ⟨d, hd⟩ := Option.isSome_iff_exists.mp hts
  unfold mkJobFlowInfo
  rw [hd]
  cases hu : jf.normalizedinstancehours with
  | none => simp
  | some raw =>
    cases hp : pyFloat raw with
    | none => simp [hp]
    | some hrs =>
      cases hm : jobFlowNameMatch jf.name with
      | none => simp [hp]
      | some ju => cases ju; simp [hp]

/-- A concrete raw entry with a non-numeric usage field. -/
def jfBadUsage : RawJobFlow :=
  ⟨"j-2", "y", "2010-11-03T12:12:49Z", some "lots"⟩

theorem usage_error_iff_witness :
    mkJobFlowInfo jfBadUsage = .error .malformedUsageValue ↔
      jfBadUsage.normalizedinstancehours.bind pyFloat = none :=
  usage_error_iff jfBadUsage (by with_unfolding_all rfl)

/-! ## C4: grouping is a partition -/

/-- C4: the per-group sums of the "Top jobs" section add up to the total
usage sum over all records. -/
theorem topjobs_partition_sum (infos : List JobFlowInfo) :
    ((sortedGroups (fun i => i.mrJobName) infos).map (fun p => p.2)).sum =
      (infos.map (fun i => i.hours)).sum := by
  have hperm :
      (sortedGroups (fun i => i.mrJobName) infos).Perm
        (groupHours (fun i => i.mrJobName) infos) :=
    List.mergeSort_perm _ _
  rw [(hperm.map _).sum_eq]
  simpa using groupHours_foldl_sum (fun i => i.mrJobName) infos []

/-! ## C5: integer truncation of displayed hours -/

theorem pyTrunc_of_nonneg (q : ℚ) (h : 0 ≤ q) : pyTrunc q = ⌊q⌋ := by
  unfold pyTrunc
  rw [Int.tdiv_eq_ediv (Rat.num_nonneg.mpr h) (Int.ofNat_nonneg q.den),
    Rat.floor_def]

theorem pyTrunc_of_neg (q : ℚ) (h : q < 0) : pyTrunc q = ⌈q⌉ := by
  have h1 : pyTrunc (-q) = ⌊-q⌋ :=
    pyTrunc_of_nonneg (-q) (neg_nonneg.mpr h.le)
  have h2 : pyTrunc (-q) = -(pyTrunc q) := by
    unfold pyTrunc
    simp
  have h3 : (⌈q⌉ : ℤ) = -⌊-q⌋ := by
    have := Int.ceil_neg (α := ℚ) (a := -q)
    simpa using this
  omega

/-- The timestamp used by the concrete report inputs. -/
def dt0 : DateTime := ⟨2010, 1, 1, 0, 0, 0⟩

/-- A record whose hours value is the float 3.99. -/
def r399 : JobFlowInfo := ⟨"id-1", "n", dt0, 399 / 100, none, none⟩

/-- C5: every displayed hours value is the underlying value truncated
toward zero (floor for nonnegative values, ceiling for negative ones),
never rounded: a 3.99-hour record renders as 3 in the total line, in a
group line and in a job-flow line, while rounding would give 4. -/
theorem displayed_hours_truncated :
    (∀ q : ℚ, 0 ≤ q → pyTrunc q = ⌊q⌋) ∧
    (∀ q : ℚ, q < 0 → pyTrunc q = ⌈q⌉) ∧
    pyTrunc (399 / 100) = 3 ∧
    round ((399 : ℚ) / 100) = 4 ∧
    groupLine (some "j", 399 / 100) = "      3 j" ∧
    jobFlowLine r399 = "      3 id-1            n" ∧
    (printReport dt0 [r399])[11]? = some "Total Usage: 3" := by
  refine ⟨pyTrunc_of_nonneg, pyTrunc_of_neg, ?_, ?_, ?_, ?_, ?_⟩
  · with_unfolding_all decide
  · rw [round_eq]
    norm_num
  · with_unfolding_all decide
  · with_unfolding_all decide
  · with_unfolding_all decide

theorem displayed_hours_truncated_witness : pyTrunc (7 / 2) = ⌊(7 : ℚ) / 2⌋ :=
  displayed_hours_truncated.1 (7 / 2) (by norm_num)

/-! ## C6: the Top job flows section -/

theorem jfLE_total : ∀ a b : JobFlowInfo, jfLE a b || jfLE b a := by
  intro a b
  unfold jfLE
  by_cases h1 : a.hours = b.hours
  · rw [if_pos h1, if_pos h1.symm]
    rcases le_total a.name b.name with h | h <;> simp [h]
  · rw [if_neg h1, if_neg (fun e => h1 e.symm)]
    rcases lt_or_gt_of_ne h1 with h | h <;> simp [h]

theorem jfLE_trans : ∀ a b c : JobFlowInfo,
    jfLE a b → jfLE b c → jfLE a c := by
  intro a b c hab hbc
  unfold jfLE at hab hbc ⊢
  by_cases h1 : a.hours = b.hours <;> by_cases h2 : b.hours = c.hours
  · rw [if_pos h1] at hab
    rw [if_pos h2] at hbc
    rw [if_pos (h1.trans h2)]
    simp only [decide_eq_true_eq] at hab hbc ⊢
    exact le_trans hab hbc
  · rw [if_pos h1] at hab
    rw [if_neg h2] at hbc
    have h3 : ¬ a.hours = c.hours := by rw [h1]; exact h2
    rw [if_neg h3]
    simp only [decide_eq_true_eq] at hbc ⊢
    rw [h1]
    exact hbc
  · rw [if_neg h1] at hab
    rw [if_pos h2] at hbc
    have h3 : ¬ a.hours = c.hours := by rw [← h2]; exact h1
    rw [if_neg h3]
    simp only [decide_eq_true_eq] at hab ⊢
    rw [← h2]
    exact hab
  · rw [if_neg h1] at hab
    rw [if_neg h2] at hbc
    simp only [decide_eq_true_eq] at hab hbc
    have h4 : c.hours < a.hours := lt_trans hbc hab
    rw [if_neg (ne_of_gt h4)]
    simp [h4]

/-- C6: the "Top job flows" section lists every record exactly once (it is
a permutation of the input), sorted by descending hours with ties broken by
ascending name, and each line is the truncated hours, the id left-justified
in a 15-wide field, and the name. -/
theorem topjobflows_complete_sorted (infos : List JobFlowInfo) :
    (topJobFlows infos).Perm infos ∧
    (topJobFlows infos).Pairwise
      (fun a b => b.hours < a.hours ∨ (a.hours = b.hours ∧ a.name ≤ b.name)) ∧
    (∀ i : JobFlowInfo,
      jobFlowLine i =
        "  " ++ padLeft (toString (pyTrunc i.hours)) 5 ++ " " ++
          padRight i.id 15 ++ " " ++ i.name) := by
  refine ⟨List.mergeSort_perm infos jfLE, ?_, fun i => rfl⟩
  have hs := List.sorted_mergeSort jfLE_trans jfLE_total infos
  refine hs.imp ?_
  intro a b h
  unfold jfLE at h
  by_cases h1 : a.hours = b.hours
  · exact Or.inr ⟨h1, by simpa [h1] using h⟩
  · exact Or.inl (by simpa [h1] using h)

/-! ## C1: ordering of the Top jobs / Top users groups -/

/-- A record whose job name starts with `!`, which sorts before `(` . -/
def rBang : JobFlowInfo := ⟨"j-A", "!a.u.1.2.3", dt0, 5, some "!a", some "u"⟩

/-- A record not started by mrjob (key `None`), tied at 5 hours. -/
def rPlain : JobFlowInfo := ⟨"j-B", "plain", dt0, 5, none, none⟩

/-- C1 counterexample: two groups tie at 5 summed hours, yet the group
displayed first has the label `(not started by mrjob)` which sorts after
the label `!a` — the tie is broken by the raw key (Python `None` before
every string), not by the displayed label. -/
theorem topjobs_tie_not_sorted_by_label :
    sortedGroups (fun i => i.mrJobName) [rBang, rPlain] =
      [(none, 5), (some "!a", 5)] ∧
    topGroupLines (fun i => i.mrJobName) [rBang, rPlain] =
      ["      5 (not started by mrjob)", "      5 !a"] ∧
    ¬ (fmt none ≤ fmt (some "!a")) := by
  refine ⟨?_, ?_, ?_⟩ <;> with_unfolding_all decide

theorem noneLE_total : ∀ a b : Option String, noneLE a b || noneLE b a := by
  intro a b
  cases a <;> cases b <;> simp [noneLE]
  exact le_total _ _

theorem noneLE_trans : ∀ a b c : Option String,
    noneLE a b → noneLE b c → noneLE a c := by
  intro a b c hab hbc
  cases a <;> cases b <;> cases c <;> simp_all [noneLE]
  exact le_trans hab hbc

theorem groupLE_total : ∀ x y : Option String × ℚ,
    groupLE x y || groupLE y x := by
  intro x y
  unfold groupLE
  by_cases h1 : x.2 = y.2
  · rw [if_pos h1, if_pos h1.symm]
    have := noneLE_total x.1 y.1
    simpa using this
  · rw [if_neg h1, if_neg (fun e => h1 e.symm)]
    rcases lt_or_gt_of_ne h1 with h | h <;> simp [h]

theorem groupLE_trans : ∀ x y z : Option String × ℚ,
    groupLE x y → groupLE y z → groupLE x z := by
  intro x y z hxy hyz
  unfold groupLE at hxy hyz ⊢
  by_cases h1 : x.2 = y.2 <;> by_cases h2 : y.2 = z.2
  · rw [if_pos h1] at hxy
    rw [if_pos h2] at hyz
    rw [if_pos (h1.trans h2)]
    exact noneLE_trans _ _ _ hxy hyz
  · rw [if_pos h1] at hxy
    rw [if_neg h2] at hyz
    have h3 : ¬ x.2 = z.2 := by rw [h1]; exact h2
    rw [if_neg h3]
    simp only [decide_eq_true_eq] at hyz ⊢
    rw [h1]
    exact hyz
  · rw [if_neg h1] at hxy
    rw [if_pos h2] at hyz
    have h3 : ¬ x.2 = z.2 := by rw [← h2]; exact h1
    rw [if_neg h3]
    simp only [decide_eq_true_eq] at hxy ⊢
    rw [← h2]
    exact hxy
  · rw [if_neg h1] at hxy
    rw [if_neg h2] at hyz
    simp only [decide_eq_true_eq] at hxy hyz
    have h4 : z.2 < x.2 := lt_trans hyz hxy
    rw [if_neg (ne_of_gt h4)]
    simp [h4]

/-- C1 amended: in the "Top jobs" and "Top users" sections the listed
groups are exactly the grouped sums, ordered by descending summed hours;
a tie is broken by the raw grouping key — `None` (the unset-label group)
ordering before every string, strings bytewise ascending — not by the
rendered label. -/
theorem topgroups_sorted_by_key (key : JobFlowInfo → Option String)
    (infos : List JobFlowInfo) :
    (sortedGroups key infos).Perm (groupHours key infos) ∧
    (sortedGroups key infos).Pairwise
      (fun x y => y.2 < x.2 ∨ (x.2 = y.2 ∧ noneLE x.1 y.1)) := by
  refine ⟨List.mergeSort_perm _ _, ?_⟩
  have hs := List.sorted_mergeSort groupLE_trans groupLE_total
    (groupHours key infos)
  refine hs.imp ?_
  intro x y h
  unfold groupLE at h
  by_cases h1 : x.2 = y.2
  · exact Or.inr ⟨h1, by simpa [h1] using h⟩
  · exact Or.inl (by simpa [h1] using h)

/-! ## C9: the empty job name renders like the unset one -/

/-- The raw entry whose name has an empty job-name segment. -/
def jfEmptyName : RawJobFlow :=
  ⟨"j-C", ".dave.1.2.3", "2010-11-03T12:12:49Z", some "2"⟩

/-- The record built from `jfEmptyName`: note `mrJobName = some ""`. -/
def rEmptyName : JobFlowInfo :=
  ⟨"j-C", ".dave.1.2.3", ⟨2010, 11, 3, 12, 12, 49⟩, 2, some "", some "dave"⟩

/-- A record not started by mrjob, in the `None` group. -/
def rCustom : JobFlowInfo := ⟨"j-D", "custom", dt0, 1, none, none⟩

/-- C9: the name `.dave.1.2.3` matches the convention with an empty
job-name capture, the fetcher stores `some ""` (a key distinct from
`none`), and the two distinct groups are both rendered with the identical
placeholder label in the Top jobs section. -/
theorem empty_jobname_distinct_group_same_label :
    jobFlowNameMatch ".dave.1.2.3" = some ("", "dave") ∧
    mkJobFlowInfo jfEmptyName = .ok rEmptyName ∧
    sortedGroups (fun i => i.mrJobName) [rEmptyName, rCustom] =
      [(some "", 2), (none, 1)] ∧
    (some "" : Option String) ≠ none ∧
    topGroupLines (fun i => i.mrJobName) [rEmptyName, rCustom] =
      ["      2 (not started by mrjob)", "      1 (not started by mrjob)"] := by
  refine ⟨rfl, by with_unfolding_all rfl, ?_, by simp, ?_⟩ <;>
    with_unfolding_all decide

/-! ## The naming-convention regular expression (C3, C10) -/

theorem maxSplit_some {P : Nat → Bool} :
    ∀ {n k : Nat}, maxSplit P n = some k →
      P k = true ∧ k < n ∧ ∀ m, k < m → m < n → P m = false := by
  intro n
  induction n with
  | zero => intro k h; exact absurd h (by simp [maxSplit])
  | succ n ih =>
    intro k h
    unfold maxSplit at h
    by_cases hP : P n = true
    · rw [if_pos hP] at h
      injection h with h'
      subst h'
      exact ⟨hP, Nat.lt_succ_self _, fun m hm1 hm2 => absurd hm2 (by omega)⟩
    · rw [if_neg hP] at h
      obtain ⟨h1, h2, h3⟩ := ih h
      refine ⟨h1, by omega, fun m hm1 hm2 => ?_⟩
      by_cases hmn : m = n
      · subst hmn
        simpa using hP
      · exact h3 m hm1 (by omega)

theorem maxSplit_isSome {P : Nat → Bool} :
    ∀ {n k : Nat}, k < n → P k = true → (maxSplit P n).isSome := by
  intro n
  induction n with
  | zero => intro k h _; omega
  | succ n ih =>
    intro k hk hP
    unfold maxSplit
    by_cases hPn : P n = true
    · rw [if_pos hPn]; rfl
    · rw [if_neg hPn]
      have hne : k ≠ n := fun e => hPn (e ▸ hP)
      exact ih (by omega) hP

/-- The split of `l1 ++ c :: l2` at the first failure of `p`, when all of
`l1` satisfies `p` and `c` does not. -/
theorem takeWhile_exact {p : Char → Bool} (c : Char) (hc : p c = false) :
    ∀ (l1 l2 : List Char), (∀ x ∈ l1, p x = true) →
      (l1 ++ c :: l2).takeWhile p = l1 ∧
        (l1 ++ c :: l2).dropWhile p = c :: l2 := by
  intro l1
  induction l1 with
  | nil =>
    intro l2 _
    simp [List.takeWhile_cons, List.dropWhile_cons, hc]
  | cons a l1 ih =>
    intro l2 h
    have ha : p a = true := h a (List.mem_cons_self a l1)
    obtain ⟨ht, hd⟩ := ih l2 (fun x hx => h x (List.mem_cons_of_mem a hx))
    simp [List.takeWhile_cons, List.dropWhile_cons, ha, ht, hd]

theorem allDigits_iff (ds : List Char) :
    allDigits ds = true ↔ ds ≠ [] ∧ ∀ c ∈ ds, Char.isDigit c = true := by
  simp [allDigits, List.all_eq_true, List.isEmpty_iff]

theorem isDigit_dot_false : Char.isDigit '.' = false := by decide

theorem allDigits_no_dot (ds : List Char) (h : allDigits ds = true) :
    '.' ∉ ds := by
  intro hm
  have := ((allDigits_iff ds).mp h).2 '.' hm
  rw [isDigit_dot_false] at this
  cases this

theorem noNl_iff (cs : List Char) : noNl cs = true ↔ '\n' ∉ cs := by
  simp only [noNl, List.all_eq_true, bne_iff_ne, ne_eq]
  constructor
  · intro h hm
    exact h '\n' hm rfl
  · intro h c hc he
    rw [he] at hc
    exact h hc

theorem dollarOnly_iff (cs : List Char) :
    dollarOnly cs = true ↔ cs = [] ∨ cs = ['\n'] := by
  unfold dollarOnly
  rw [Bool.or_eq_true, List.isEmpty_iff, beq_iff_eq]

theorem dot_not_mem_dollar (t : List Char) (ht : t = [] ∨ t = ['\n']) :
    '.' ∉ t := by
  rcases ht with rfl | rfl <;> decide

/-- `takeWhile`/`dropWhile` on a list every element of which satisfies the
predicate. -/
theorem takeWhile_all {p : Char → Bool} :
    ∀ (l : List Char), (∀ x ∈ l, p x = true) →
      l.takeWhile p = l ∧ l.dropWhile p = [] := by
  intro l
  induction l with
  | nil => intro h; simp
  | cons a t ih =>
    intro h
    have ha : p a = true := h a (List.mem_cons_self a t)
    obtain ⟨h1, h2⟩ := ih (fun x hx => h x (List.mem_cons_of_mem a hx))
    simp [List.takeWhile_cons, List.dropWhile_cons, ha, h1, h2]

/-- The digit run before a `$` position splits off exactly. -/
theorem digits_dollar_split (d3 t : List Char)
    (hall : ∀ x ∈ d3, Char.isDigit x = true) (ht : t = [] ∨ t = ['\n']) :
    (d3 ++ t).takeWhile Char.isDigit = d3 ∧
      (d3 ++ t).dropWhile Char.isDigit = t := by
  rcases ht with rfl | rfl
  · rw [List.append_nil]
    exact takeWhile_all d3 hall
  · exact takeWhile_exact '\n' (by decide) d3 [] hall

theorem matchD3_iff (cs : List Char) :
    matchD3 cs = true ↔
      ∃ d1 d2 d3 t, allDigits d1 = true ∧ allDigits d2 = true ∧
        allDigits d3 = true ∧ (t = [] ∨ t = ['\n']) ∧
        cs = d1 ++ '.' :: (d2 ++ '.' :: (d3 ++ t)) := by
  constructor
  · intro h
    unfold matchD3 at h
    split at h
    case _ r1 heq =>
      rw [Bool.and_eq_true] at h
      obtain ⟨h1, h2⟩ := h
      split at h2
      case _ r2 heq2 =>
        rw [Bool.and_eq_true, Bool.and_eq_true] at h2
        obtain ⟨⟨h2a, h2b⟩, h2c⟩ := h2
        refine ⟨cs.takeWhile Char.isDigit, r1.takeWhile Char.isDigit,
          r2.takeWhile Char.isDigit, r2.dropWhile Char.isDigit,
          ?_, ?_, ?_, ?_, ?_⟩
        · rw [allDigits_iff]
          exact ⟨by simpa using h1, fun c hc => List.mem_takeWhile_imp hc⟩
        · rw [allDigits_iff]
          exact ⟨by simpa using h2a, fun c hc => List.mem_takeWhile_imp hc⟩
        · rw [allDigits_iff]
          exact ⟨by simpa using h2b, fun c hc => List.mem_takeWhile_imp hc⟩
        · exact (dollarOnly_iff _).mp h2c
        · conv_lhs => rw [← List.takeWhile_append_dropWhile Char.isDigit cs]
          rw [heq]
          congr 1
          conv_lhs => rw [← List.takeWhile_append_dropWhile Char.isDigit r1]
          rw [heq2]
          simp
      case _ => cases h2
    case _ => cases h
  · rintro ⟨d1, d2, d3, t, a1, a2, a3, ht, rfl⟩
    obtain ⟨h1ne, h1all⟩ := (allDigits_iff d1).mp a1
    obtain ⟨h2ne, h2all⟩ := (allDigits_iff d2).mp a2
    obtain ⟨h3ne, h3all⟩ := (allDigits_iff d3).mp a3
    obtain ⟨e1t, e1d⟩ := takeWhile_exact '.' isDigit_dot_false d1
      (d2 ++ '.' :: (d3 ++ t)) h1all
    obtain ⟨e2t, e2d⟩ :=
      takeWhile_exact '.' isDigit_dot_false d2 (d3 ++ t) h2all
    obtain ⟨e3t, e3d⟩ := digits_dollar_split d3 t h3all ht
    unfold matchD3
    rw [e1d]
    simp [e1t, e2d, e2t, e3t, e3d, h1ne, h2ne, h3ne]
    rw [dollarOnly_iff]
    exact ht

/-- If the digit tail matches after some newline-free prefix and a dot,
group 2 can match (with some capture). -/
theorem matchG2_isSome (u tail : List Char) (h : matchD3 tail = true)
    (hnl : '\n' ∉ u) :
    (matchG2 (u ++ '.' :: tail)).isSome := by
  have hp : tailP (u ++ '.' :: tail) u.length = true := by
    unfold tailP
    rw [Bool.and_eq_true]
    constructor
    · rw [List.take_left]
      exact (noNl_iff u).mpr hnl
    · rw [List.drop_left]
      simpa using h
  have hk : u.length < (u ++ '.' :: tail).length := by
    simp [List.length_append]
  have hms := maxSplit_isSome hk hp
  unfold matchG2
  cases hm : maxSplit (tailP (u ++ '.' :: tail)) (u ++ '.' :: tail).length with
  | none => rw [hm] at hms; cases hms
  | some k => simp

/-- What a successful group-2 match yields: a newline-free capture, a dot,
and a matching digit tail. -/
theorem matchG2_some (cs u : List Char) (h : matchG2 cs = some u) :
    ∃ tail, cs = u ++ '.' :: tail ∧ matchD3 tail = true ∧ '\n' ∉ u := by
  unfold matchG2 at h
  cases hm : maxSplit (tailP cs) cs.length with
  | none => rw [hm] at h; cases h
  | some k =>
    rw [hm] at h
    injection h with h'
    obtain ⟨hPk, hkn, _⟩ := maxSplit_some hm
    unfold tailP at hPk
    rw [Bool.and_eq_true] at hPk
    obtain ⟨hnl, hPk⟩ := hPk
    have hbeta : List.take k cs = u := h'
    split at hPk
    case _ tail heq =>
      refine ⟨tail, ?_, hPk, ?_⟩
      · rw [← hbeta]
        conv_lhs => rw [← List.take_append_drop k cs, heq]
      · rw [← hbeta]
        exact (noNl_iff _).mp hnl
    case _ => cases hPk

/-- Unfolding of the matcher once its outer backtracking search is known. -/
theorem jobFlowNameMatchL_eq (cs : List Char) {k : Nat}
    (hk : maxSplit (headP cs) cs.length = some k) :
    jobFlowNameMatchL cs =
      match cs.drop k with
      | '.' :: rest => (matchG2 rest).map (fun u => (cs.take k, u))
      | _ => none := by
  unfold jobFlowNameMatchL
  rw [hk]

/-- Any string of the shape `<j>.<u>.<digits>.<digits>.<digits>`, plus
optionally one trailing newline, with newline-free `j` and `u`, is matched
by `JOB_FLOW_NAME_RE` (with some captures). -/
theorem jobFlowNameMatchL_isSome (j u d1 d2 d3 t : List Char)
    (h1 : allDigits d1 = true) (h2 : allDigits d2 = true)
    (h3 : allDigits d3 = true) (ht : t = [] ∨ t = ['\n'])
    (hnj : '\n' ∉ j) (hnu : '\n' ∉ u) :
    (jobFlowNameMatchL
      (j ++ '.' ::
        (u ++ '.' :: (d1 ++ '.' :: (d2 ++ '.' :: (d3 ++ t)))))).isSome := by
  have hd3 : matchD3 (d1 ++ '.' :: (d2 ++ '.' :: (d3 ++ t))) = true :=
    (matchD3_iff _).mpr ⟨d1, d2, d3, t, h1, h2, h3, ht, rfl⟩
  have hg2 := matchG2_isSome u _ hd3 hnu
  have hp : headP
      (j ++ '.' :: (u ++ '.' :: (d1 ++ '.' :: (d2 ++ '.' :: (d3 ++ t)))))
      j.length = true := by
    unfold headP
    rw [Bool.and_eq_true]
    constructor
    · rw [List.take_left]
      exact (noNl_iff j).mpr hnj
    · rw [List.drop_left]
      simpa using hg2
  have hk : j.length <
      (j ++ '.' ::
        (u ++ '.' :: (d1 ++ '.' :: (d2 ++ '.' :: (d3 ++ t))))).length := by
    simp [List.length_append]
  have hms := maxSplit_isSome hk hp
  obtain ⟨k, hk2⟩ := Option.isSome_iff_exists.mp hms
  obtain ⟨hPk, _, _⟩ := maxSplit_some hk2
  rw [jobFlowNameMatchL_eq _ hk2]
  unfold headP at hPk
  rw [Bool.and_eq_true] at hPk
  obtain ⟨_, hPk⟩ := hPk
  split at hPk
  case _ rest heq =>
    cases hg : matchG2 rest with
    | none => rw [hg] at hPk; cases hPk
    | some u2 => simp [hg]
  case _ => cases hPk

/-- What a successful match of `JOB_FLOW_NAME_RE` yields: the input splits
as `<group1>.<group2>.<digits>.<digits>.<digits>` plus optionally one
trailing newline (where `$` matches), the captures are newline-free, and —
because group 1 is greedy — group 2 contains no dot (any dot between
candidate positions is absorbed into group 1). -/
theorem jobFlowNameMatchL_some (cs j u : List Char)
    (h : jobFlowNameMatchL cs = some (j, u)) :
    ∃ d1 d2 d3 t, allDigits d1 = true ∧ allDigits d2 = true ∧
      allDigits d3 = true ∧ (t = [] ∨ t = ['\n']) ∧
      '\n' ∉ j ∧ '\n' ∉ u ∧ '.' ∉ u ∧
      cs = j ++ '.' :: (u ++ '.' :: (d1 ++ '.' :: (d2 ++ '.' :: (d3 ++ t)))) := by
  cases hms : maxSplit (headP cs) cs.length with
  | none => unfold jobFlowNameMatchL at h; rw [hms] at h; cases h
  | some k =>
    rw [jobFlowNameMatchL_eq _ hms] at h
    obtain ⟨hPk, hkn, hmax⟩ := maxSplit_some hms
    unfold headP at hPk
    rw [Bool.and_eq_true] at hPk
    obtain ⟨hnlk, hPk⟩ := hPk
    split at h
    case _ rest heq =>
      cases hg : matchG2 rest with
      | none => rw [hg] at h; cases h
      | some u2 =>
        rw [hg] at h
        injection h with h2
        injection h2 with hj hu
        rw [hu] at hg
        obtain ⟨tail, hrest, hD3, hnlu⟩ := matchG2_some rest u hg
        obtain ⟨d1, d2, d3, t, a1, a2, a3, ht, htl⟩ := (matchD3_iff tail).mp hD3
        have hjlen : j.length = k := by
          rw [← hj]
          simp [List.length_take]
          omega
        have hcs : cs = j ++ '.' :: (u ++ '.' :: tail) := by
          rw [← hj]
          conv_lhs => rw [← List.take_append_drop k cs, heq, hrest]
        have hnlj : '\n' ∉ j := by
          rw [← hj]
          exact (noNl_iff _).mp hnlk
        refine ⟨d1, d2, d3, t, a1, a2, a3, ht, hnlj, hnlu, ?_,
          by rw [hcs, htl]⟩
        intro hmem
        obtain ⟨u1, u2', hu12⟩ := List.append_of_mem hmem
        have hnlu2 : '\n' ∉ u2' := fun hm =>
          hnlu (by rw [hu12]; simp [hm])
        have hcs2 : cs = (j ++ '.' :: u1) ++ '.' :: (u2' ++ '.' :: tail) := by
          rw [hcs, hu12]
          simp [List.append_assoc]
        have hP2 : headP cs ((j ++ '.' :: u1).length) = true := by
          unfold headP
          rw [Bool.and_eq_true]
          constructor
          · rw [hcs2, List.take_left, noNl_iff]
            intro hm
            rcases List.mem_append.mp hm with hmj | hmc
            · exact hnlj hmj
            · rcases List.mem_cons.mp hmc with he | hm1
              · exact absurd he (by decide)
              · exact hnlu (by rw [hu12]; exact List.mem_append.mpr (Or.inl hm1))
          · rw [hcs2, List.drop_left]
            have hG := matchG2_isSome u2' tail hD3 hnlu2
            simpa using hG
        have hklt : k < (j ++ '.' :: u1).length := by
          simp [List.length_append, ← hjlen]
        have hltn : (j ++ '.' :: u1).length < cs.length := by
          rw [hcs2]
          simp [List.length_append]
        have := hmax _ hklt hltn
        rw [hP2] at this
        cases this
    case _ => cases h

/-- Splitting a list at its last dot is unique when both candidate suffixes
are dot-free. -/
theorem append_dotfree_unique :
    ∀ (a b r s : List Char),
      a ++ '.' :: r = b ++ '.' :: s → '.' ∉ r → '.' ∉ s → a = b ∧ r = s := by
  intro a
  induction a with
  | nil =>
    intro b r s heq hr hs
    cases b with
    | nil =>
      simp only [List.nil_append, List.cons.injEq] at heq
      exact ⟨rfl, heq.2⟩
    | cons c b2 =>
      simp only [List.nil_append, List.cons_append, List.cons.injEq] at heq
      exact absurd (by rw [heq.2]; simp : '.' ∈ r) hr
  | cons c a2 ih =>
    intro b r s heq hr hs
    cases b with
    | nil =>
      simp only [List.nil_append, List.cons_append, List.cons.injEq] at heq
      exact absurd (by rw [← heq.2]; simp : '.' ∈ s) hs
    | cons d b2 =>
      simp only [List.cons_append, List.cons.injEq] at heq
      obtain ⟨h1, h2⟩ := ih b2 r s heq.2 hr hs
      exact ⟨by rw [heq.1, h1], h2⟩

/-- The decomposition `<j>.<u>.<d1>.<d2>.<d3>` with dot-free `u`, `d1`,
`d2`, `d3` is unique. -/
theorem canonical_decomp_unique
    (j u d1 d2 d3 j2 u2 e1 e2 e3 : List Char)
    (h : j ++ '.' :: (u ++ '.' :: (d1 ++ '.' :: (d2 ++ '.' :: d3))) =
        j2 ++ '.' :: (u2 ++ '.' :: (e1 ++ '.' :: (e2 ++ '.' :: e3))))
    (hu : '.' ∉ u) (hd1 : '.' ∉ d1) (hd2 : '.' ∉ d2) (hd3 : '.' ∉ d3)
    (hu2 : '.' ∉ u2) (he1 : '.' ∉ e1) (he2 : '.' ∉ e2) (he3 : '.' ∉ e3) :
    j = j2 ∧ u = u2 := by
  have h4 : (((j ++ '.' :: u) ++ '.' :: d1) ++ '.' :: d2) ++ '.' :: d3 =
      (((j2 ++ '.' :: u2) ++ '.' :: e1) ++ '.' :: e2) ++ '.' :: e3 := by
    simpa [List.append_assoc] using h
  obtain ⟨h3, _⟩ := append_dotfree_unique _ _ _ _ h4 hd3 he3
  obtain ⟨h2, _⟩ := append_dotfree_unique _ _ _ _ h3 hd2 he2
  obtain ⟨h1, _⟩ := append_dotfree_unique _ _ _ _ h2 hd1 he1
  exact append_dotfree_unique _ _ _ _ h1 hu hu2

/-- The full characterization of `JOB_FLOW_NAME_RE` under Python's
leftmost-greedy matching: the captures are `(j, u)` exactly when the input
is `<j>.<u>.<digits>.<digits>.<digits>` followed by a `$` position (end of
string or one trailing newline), with `j` and `u` newline-free and `u`
dot-free — i.e. group 1 takes everything up to the last three dot-digit
suffixes and group 2 is the single segment immediately preceding them. -/
theorem jobFlowNameMatchL_eq_some_iff (cs j u : List Char) :
    jobFlowNameMatchL cs = some (j, u) ↔
      ∃ d1 d2 d3 t, allDigits d1 = true ∧ allDigits d2 = true ∧
        allDigits d3 = true ∧ (t = [] ∨ t = ['\n']) ∧
        '\n' ∉ j ∧ '\n' ∉ u ∧ '.' ∉ u ∧
        cs =
          j ++ '.' :: (u ++ '.' :: (d1 ++ '.' :: (d2 ++ '.' :: (d3 ++ t)))) := by
  constructor
  · exact jobFlowNameMatchL_some cs j u
  · rintro ⟨d1, d2, d3, t, a1, a2, a3, ht, hnj, hnu, hdu, rfl⟩
    have hs := jobFlowNameMatchL_isSome j u d1 d2 d3 t a1 a2 a3 ht hnj hnu
    obtain ⟨⟨j2, u2⟩, hj2⟩ := Option.isSome_iff_exists.mp hs
    obtain ⟨e1, e2, e3, t2, b1, b2, b3, ht2, _, _, hdu2, hcs⟩ :=
      jobFlowNameMatchL_some _ j2 u2 hj2
    have hnd : '.' ∉ d3 ++ t := by
      intro hm
      rcases List.mem_append.mp hm with hm | hm
      · exact allDigits_no_dot d3 a3 hm
      · exact dot_not_mem_dollar t ht hm
    have hne : '.' ∉ e3 ++ t2 := by
      intro hm
      rcases List.mem_append.mp hm with hm | hm
      · exact allDigits_no_dot e3 b3 hm
      · exact dot_not_mem_dollar t2 ht2 hm
    obtain ⟨hjj, huu⟩ := canonical_decomp_unique j u d1 d2 (d3 ++ t)
      j2 u2 e1 e2 (e3 ++ t2) hcs hdu (allDigits_no_dot d1 a1)
      (allDigits_no_dot d2 a2) hnd hdu2 (allDigits_no_dot e1 b1)
      (allDigits_no_dot e2 b2) hne
    rw [hj2, hjj, huu]

theorem stringMk_inj (a b : List Char) :
    (String.mk a = String.mk b) ↔ a = b := by
  constructor
  · intro h
    injection h
  · intro h
    rw [h]

/-- The `String`-level matcher agrees with the character-list matcher. -/
theorem jobFlowNameMatch_eq_some_iff (s j u : String) :
    jobFlowNameMatch s = some (j, u) ↔
      jobFlowNameMatchL s.data = some (j.data, u.data) := by
  obtain ⟨jd⟩ := j
  obtain ⟨ud⟩ := u
  unfold jobFlowNameMatch
  cases hL : jobFlowNameMatchL s.data with
  | none => simp
  | some p =>
    obtain ⟨jl, ul⟩ := p
    simp [Prod.ext_iff, stringMk_inj]

theorem getLast_dot_cons {X : List Char} (h : X ≠ []) :
    (('.' : Char) :: X).getLast? = X.getLast? := by
  rw [← List.singleton_append]
  exact List.getLast?_append_of_ne_nil _ h

/-- C3 counterexample: Python's `$` also matches just before one trailing
newline, so `JOB_FLOW_NAME_RE` matches the name `"a.b.1.2.3\n"` (captures
`"a"`, `"b"`) although that name is not of the form
`<jobName>.<user>.<digits>.<digits>.<digits>`: any such decomposition would
end in a digit, but the name ends in a newline. -/
theorem newline_name_matches_outside_form :
    jobFlowNameMatch "a.b.1.2.3\n" = some ("a", "b") ∧
    ¬ ∃ j u d1 d2 d3 : List Char,
        allDigits d1 = true ∧ allDigits d2 = true ∧ allDigits d3 = true ∧
        ("a.b.1.2.3\n" : String).data =
          j ++ '.' :: (u ++ '.' :: (d1 ++ '.' :: (d2 ++ '.' :: d3))) := by
  constructor
  · rfl
  · rintro ⟨j, u, d1, d2, d3, a1, a2, a3, heq⟩
    have h3ne : d3 ≠ [] := ((allDigits_iff d3).mp a3).1
    have hlast : (("a.b.1.2.3\n" : String).data).getLast? = some '\n' := by
      rfl
    rw [heq,
      List.getLast?_append_of_ne_nil _ (List.cons_ne_nil _ _),
      getLast_dot_cons (by simp),
      List.getLast?_append_of_ne_nil _ (List.cons_ne_nil _ _),
      getLast_dot_cons (by simp),
      List.getLast?_append_of_ne_nil _ (List.cons_ne_nil _ _),
      getLast_dot_cons (by simp),
      List.getLast?_append_of_ne_nil _ (List.cons_ne_nil _ _),
      getLast_dot_cons h3ne] at hlast
    have hmem : '\n' ∈ d3 := List.mem_of_mem_getLast? hlast
    have hdig := ((allDigits_iff d3).mp a3).2 '\n' hmem
    exact absurd hdig (by decide)

/-- C3 amended: the naming-convention parse succeeds exactly when the name
is `<jobName>.<user>.<digits>.<digits>.<digits>` optionally followed by one
trailing newline, with `jobName` and `user` newline-free (Python's `.`
never matches a newline, and `$` also matches just before a trailing
newline); on success `jobName` captures everything up to the last three
dot-numeric suffixes and `user` is the dot-free segment immediately
preceding them; in particular
`mr_word_freq_count.dave.20101103.121249.638552` yields
`jobName = "mr_word_freq_count"`, `user = "dave"`, and `my-custom-cluster`
yields no match (both fields unset). -/
theorem naming_convention_characterized :
    (∀ s j u : String,
      jobFlowNameMatch s = some (j, u) ↔
        ∃ d1 d2 d3 t : List Char,
          allDigits d1 = true ∧ allDigits d2 = true ∧
          allDigits d3 = true ∧ (t = [] ∨ t = ['\n']) ∧
          '\n' ∉ j.data ∧ '\n' ∉ u.data ∧ '.' ∉ u.data ∧
          s.data =
            j.data ++
              '.' :: (u.data ++
                '.' :: (d1 ++ '.' :: (d2 ++ '.' :: (d3 ++ t))))) ∧
    jobFlowNameMatch "mr_word_freq_count.dave.20101103.121249.638552" =
      some ("mr_word_freq_count", "dave") ∧
    jobFlowNameMatch "my-custom-cluster" = none := by
  refine ⟨?_, by rfl, by rfl⟩
  intro s j u
  rw [jobFlowNameMatch_eq_some_iff]
  exact jobFlowNameMatchL_eq_some_iff s.data j.data u.data

/-- C10: whenever a name matches the convention, the extracted user string
contains no dot — the greedy leading capture absorbs every earlier dot. -/
theorem matched_user_dot_free (s j u : String)
    (h : jobFlowNameMatch s = some (j, u)) : '.' ∉ u.data := by
  have hL := (jobFlowNameMatch_eq_some_iff s j u).mp h
  obtain ⟨_, _, _, _, _, _, _, _, _, _, hu, _⟩ :=
    jobFlowNameMatchL_some _ _ _ hL
  exact hu

theorem matched_user_dot_free_witness : '.' ∉ ("dave" : String).data :=
  matched_user_dot_free "mr_wc.dave.1.2.3" "mr_wc" "dave" (by rfl)

end AuditUsage
